import Mathlib

/-!
# Verification of the kbuhist2 preprocessing pipeline

Shallow embedding of `src/kbuhist/preprocess/word_cleaner.py` and
`src/kbuhist/preprocess/preprocess_chunk.py`, together with proofs settling
the frozen claims about the natural-language specification.

Modelling conventions:
* Python `str.split()` (no argument) splits on runs of whitespace and drops
  empty fields; `str.strip()` removes leading/trailing whitespace.  We model
  the six ASCII whitespace characters recognised by CPython for ASCII text.
* Python floats are modelled with exact rationals (`ℚ`); every denominator in
  the source is a positive constant, so no rounding subtleties arise at the
  inputs considered here.
* The external HuggingFace tokenizer is used only through
  `len(tokenizer.tokenize(s))`, so it is modelled as an arbitrary function
  `tok : String → Nat` giving the token count of a string.
* Python `xs[-k]` raises `IndexError` when `len(xs) < k`; fallible code is
  modelled with `Option`, `none` standing for the raised exception.
* `re.search(r"\d", s)` is modelled as "some character of `s` is a decimal
  digit" (ASCII `0`-`9`; the corpus-relevant case).
-/

namespace Kbuhist

/-- The whitespace characters of CPython's `str.split()` / `str.strip()`
(space, tab, newline, carriage return, vertical tab, form feed). -/
def isPyWS (c : Char) : Bool :=
  c = ' ' || c = '\t' || c = '\n' || c = '\r' || c = Char.ofNat 11 || c = Char.ofNat 12

/-- Helper for `pySplit`: walk the characters, accumulating the current word
(reversed) and emitting it when whitespace is met.  Empty fields are never
produced, matching Python `str.split()` with no argument. -/
def pySplitAux : List Char → List Char → List String
  | [], cur => if cur.isEmpty then [] else [String.mk cur.reverse]
  | c :: cs, cur =>
    if isPyWS c then
      if cur.isEmpty then pySplitAux cs [] else String.mk cur.reverse :: pySplitAux cs []
    else pySplitAux cs (c :: cur)

/-- Python `s.split()`: maximal whitespace-delimited words of `s`. -/
def pySplit (s : String) : List String := pySplitAux s.toList []

/-- Python `s.strip()`: remove leading and trailing whitespace. -/
def pyStrip (s : String) : String :=
  String.mk (((s.toList.dropWhile isPyWS).reverse.dropWhile isPyWS).reverse)

/-- Python `xs[-k]` for `k ≥ 1`: `none` models the `IndexError` raised when
`len(xs) < k`. -/
def pyGetNeg (xs : List α) (k : Nat) : Option α := xs.reverse.get? (k - 1)

/-- Python `" ".join(xs)`. -/
def pyJoin (xs : List String) : String := String.intercalate " " xs

/-! ## `word_cleaner.py` — the `Word_Cleaner` class -/

/-- `Word_Cleaner._has_numbers`: `bool(re.search(r"\d", s))`. -/
def hasNumbers (s : String) : Bool := s.toList.any Char.isDigit

/-- The per-sentence counting loop of
`counting_length_of_letters_and_if_to_many_remove`: the dict
`{"long": 0, "short": 0}` after processing every word (`long` counts words of
length > 1, `short` the rest). -/
def countLongShort (ws : List String) : Nat × Nat :=
  ws.foldl (fun c w => if 1 < w.length then (c.1 + 1, c.2) else (c.1, c.2 + 1)) (0, 0)

/-- The keep decision of the body of
`counting_length_of_letters_and_if_to_many_remove` for one sentence:
`counter_avg > counting_avg` or (elif) `len(splitted_sent) < short_word_threshold`. -/
def keepLetterLength (counting_avg : ℚ) (short_word_threshold : Nat) (sent : String) : Bool :=
  let splitted_sent := pySplit sent
  let c := countLongShort splitted_sent
  let counter_ratio : ℚ := ((c.1 : ℚ) + 1/2) / ((c.2 : ℚ) + 1/1000)
  let counter_ratio_len : ℚ := 1 - (c.2 : ℚ) / ((splitted_sent.length : ℚ) + 1/10)
  let counter_avg := (counter_ratio + counter_ratio_len) / 2
  if counting_avg < counter_avg then true
  else if splitted_sent.length < short_word_threshold then true
  else false

/-- Pass A, `Word_Cleaner.counting_length_of_letters_and_if_to_many_remove`:
append each sentence passing `keepLetterLength` to the output list. -/
def counting_length_of_letters_and_if_to_many_remove
    (counting_avg : ℚ) (short_word_threshold : Nat) : List String → List String
  | [] => []
  | sent :: rest =>
    if keepLetterLength counting_avg short_word_threshold sent then
      sent :: counting_length_of_letters_and_if_to_many_remove counting_avg short_word_threshold rest
    else
      counting_length_of_letters_and_if_to_many_remove counting_avg short_word_threshold rest

/-- The per-sentence counting loop of `counting_sequence_length_of_numbers`:
the dict `{"digit": 0, "not_digit": 0}` after processing every word. -/
def countDigitNotDigit (ws : List String) : Nat × Nat :=
  ws.foldl (fun c w => if hasNumbers w then (c.1 + 1, c.2) else (c.1, c.2 + 1)) (0, 0)

/-- The keep decision of the body of `counting_sequence_length_of_numbers` for
one sentence: keep unconditionally when the sentence has no digit, otherwise
keep when `digit / (not_digit + 0.01) < number_ratio`. -/
def keepNumberRatio (number_ratio : ℚ) (sent : String) : Bool :=
  if !hasNumbers sent then true
  else
    let c := countDigitNotDigit (pySplit sent)
    if ((c.1 : ℚ) / ((c.2 : ℚ) + 1/100)) < number_ratio then true else false

/-- Pass B, `Word_Cleaner.counting_sequence_length_of_numbers`. -/
def counting_sequence_length_of_numbers (number_ratio : ℚ) : List String → List String
  | [] => []
  | sent :: rest =>
    if keepNumberRatio number_ratio sent then
      sent :: counting_sequence_length_of_numbers number_ratio rest
    else
      counting_sequence_length_of_numbers number_ratio rest

/-- `Word_Cleaner.clean_pipe`: Pass A then Pass B (logging omitted). -/
def clean_pipe (counting_avg number_ratio : ℚ) (short_word_threshold : Nat)
    (sent_list : List String) : List String :=
  counting_sequence_length_of_numbers number_ratio
    (counting_length_of_letters_and_if_to_many_remove counting_avg short_word_threshold sent_list)

/-! ## `preprocess_chunk.py` — the chunker -/

/-- The loop of `chunk_based_on_seq_len`: state is the accumulator string
`temp_sent` and the output list `temp_new_chunk_list`. -/
def chunkSeqLoop (seq_length : Nat) : List String → String → List String → List String
  | [], _, temp_new_chunk_list => temp_new_chunk_list
  | sent :: rest, temp_sent, temp_new_chunk_list =>
    let temp' := temp_sent ++ " " ++ sent
    if seq_length < (pySplit temp').length then
      chunkSeqLoop seq_length rest "" (temp_new_chunk_list ++ [pyStrip temp'])
    else
      chunkSeqLoop seq_length rest temp' temp_new_chunk_list

/-- `chunk_based_on_seq_len`: word-count budget strategy. -/
def chunk_based_on_seq_len (seq_length : Nat) (sent_list : List String) : List String :=
  chunkSeqLoop seq_length sent_list "" []

/-- Loop state of `prev_chunk_based_on_token_seq_len`: accumulator `temp_sent`,
history `temp_sent_list`, output `temp_new_chunk_list`. -/
structure TkState where
  temp : String
  hist : List String
  chunks : List String
deriving DecidableEq, Repr

/-- One iteration of the `prev_chunk_based_on_token_seq_len` loop.
`tok s` models `len(tokenizer.tokenize(s))`; `none` models the `IndexError`
raised by `temp_sent_list[-2]` on a too-short history. -/
def tkStep (tok : String → Nat) (token_seq_length : Nat) (st : TkState) (sent : String) :
    Option TkState :=
  let temp' := st.temp ++ " " ++ sent
  let hist' := st.hist ++ [pyStrip temp']
  if token_seq_length < tok (pyStrip temp') then
    match pyGetNeg hist' 2 with
    | none => none
    | some prev => some ⟨"", hist', st.chunks ++ [prev]⟩
  else
    some ⟨temp', hist', st.chunks⟩

/-- Run the `prev_chunk_based_on_token_seq_len` loop from a given state. -/
def tkLoop (tok : String → Nat) (token_seq_length : Nat) : List String → TkState → Option TkState
  | [], st => some st
  | sent :: rest, st =>
    match tkStep tok token_seq_length st sent with
    | none => none
    | some st' => tkLoop tok token_seq_length rest st'

/-- The full run of `prev_chunk_based_on_token_seq_len` from the initial state. -/
def tkRun (tok : String → Nat) (token_seq_length : Nat) (sent_list : List String) :
    Option TkState :=
  tkLoop tok token_seq_length sent_list ⟨"", [], []⟩

/-- `prev_chunk_based_on_token_seq_len`: tokenizer-budget strategy; `none`
models the `IndexError` escape. -/
def prev_chunk_based_on_token_seq_len (tok : String → Nat) (token_seq_length : Nat)
    (sent_list : List String) : Option (List String) :=
  (tkRun tok token_seq_length sent_list).map TkState.chunks

/-- The slice sizes `np.array_split` uses for a sequence of length `L` split
into `n` parts: `L % n` slices of size `L / n + 1` followed by the rest of
size `L / n`. -/
def splitSizes (L n : Nat) : List Nat :=
  (List.range n).map (fun i => if i < L % n then L / n + 1 else L / n)

/-- Cut a list into consecutive slices of the given sizes. -/
def takeDrop : List α → List Nat → List (List α)
  | _, [] => []
  | l, k :: ks => l.take k :: takeDrop (l.drop k) ks

/-- `np.array_split(l, n)`: `n` contiguous, order-preserving, near-equal
slices. -/
def array_split (l : List α) (n : Nat) : List (List α) := takeDrop l (splitSizes l.length n)

/-- `parallel_chunker_prev_chunk_based_on_token_seq_len`: split the input with
`np.array_split`, run the sequential tokenizer-budget strategy on each slice
(a worker exception aborts the whole run, hence `mapM` over `Option`), and
concatenate the per-slice chunk lists in slice order. -/
def parallel_chunker_prev_chunk_based_on_token_seq_len (tok : String → Nat)
    (token_seq_length : Nat) (cpu_count : Nat) (sent_list : List String) :
    Option (List String) :=
  ((array_split sent_list cpu_count).mapM
      (prev_chunk_based_on_token_seq_len tok token_seq_length)).map List.flatten

/-- Result type of `chunker_function_`: a joined string for the < 10 fallback,
a chunk list otherwise, or a propagated `IndexError`. -/
inductive ChunkerResult where
  | joined (s : String)
  | chunks (cs : List String)
  | indexError
deriving DecidableEq, Repr

/-- `chunker_function_`: dispatch between the fallback, the word-count
strategy and the (parallel or sequential) tokenizer-budget strategy. -/
def chunker_function_ (tok : String → Nat) (seq_length : Option Nat) (token_seq_length : Nat)
    (parallelize : Bool) (cpu_count : Nat) (sent_list : List String) : ChunkerResult :=
  if sent_list.length < 10 then
    ChunkerResult.joined (pyJoin sent_list)
  else
    match seq_length with
    | none =>
      match (if parallelize then
              parallel_chunker_prev_chunk_based_on_token_seq_len tok token_seq_length
                cpu_count sent_list
             else
              prev_chunk_based_on_token_seq_len tok token_seq_length sent_list) with
      | some cs => ChunkerResult.chunks cs
      | none => ChunkerResult.indexError
    | some n => ChunkerResult.chunks (chunk_based_on_seq_len n sent_list)

/-- A concrete tokenizer used for witnesses and counterexamples: token count =
whitespace word count. -/
def wcTok (s : String) : Nat := (pySplit s).length

/-! ## Ghost instrumentation

The claims about sentence duplication and about the accumulator history need
to speak about *which input sentences* each emitted chunk was built from.  The
instrumented chunkers below mirror the source loops exactly, additionally
carrying the list of input positions merged into each accumulator/snapshot;
projection lemmas (proved below) show that forgetting the positions recovers
the source functions. -/

/-- `chunkSeqLoop`, instrumented with the input positions of the accumulator. -/
def chunkSeqLoopI (seq_length : Nat) :
    List (Nat × String) → String → List Nat → List (String × List Nat) →
      List (String × List Nat)
  | [], _, _, acc => acc
  | (i, sent) :: rest, temp_sent, idxs, acc =>
    let temp' := temp_sent ++ " " ++ sent
    let idxs' := idxs ++ [i]
    if seq_length < (pySplit temp').length then
      chunkSeqLoopI seq_length rest "" [] (acc ++ [(pyStrip temp', idxs')])
    else
      chunkSeqLoopI seq_length rest temp' idxs' acc

/-- Instrumented word-count strategy: each chunk is paired with the positions
of the input sentences it contains. -/
def chunkSeqI (seq_length : Nat) (sent_list : List String) : List (String × List Nat) :=
  chunkSeqLoopI seq_length sent_list.enum "" [] []

/-- `tkLoop`, instrumented: every history snapshot carries the positions of
the sentences merged into it, and emitted chunks inherit the positions of the
snapshot they came from. -/
def tkLoopI (tok : String → Nat) (token_seq_length : Nat) :
    List (Nat × String) → String → List Nat → List (String × List Nat) →
      List (String × List Nat) → Option (List (String × List Nat))
  | [], _, _, _, acc => some acc
  | (i, sent) :: rest, temp_sent, idxs, hist, acc =>
    let temp' := temp_sent ++ " " ++ sent
    let idxs' := idxs ++ [i]
    let hist' := hist ++ [(pyStrip temp', idxs')]
    if token_seq_length < tok (pyStrip temp') then
      match pyGetNeg hist' 2 with
      | none => none
      | some prev => tkLoopI tok token_seq_length rest "" [] hist' (acc ++ [prev])
    else
      tkLoopI tok token_seq_length rest temp' idxs' hist' acc

/-- Instrumented tokenizer-budget strategy. -/
def tkRunI (tok : String → Nat) (token_seq_length : Nat) (sent_list : List String) :
    Option (List (String × List Nat)) :=
  tkLoopI tok token_seq_length sent_list.enum "" [] [] []

/-- The successive accumulator states of a budget loop started from `temp`:
entry `k` is the accumulator right after the `k`-th remaining sentence is
appended, assuming no reset fires. -/
def accumPrefixes (temp : String) : List String → List String
  | [] => []
  | sent :: rest => (temp ++ " " ++ sent) :: accumPrefixes (temp ++ " " ++ sent) rest

/-! ## Spec-side definitions for the parallel-refinement claim -/

/-- Modelled from the spec: a decomposition of `l` into `n` "contiguous,
order-preserving, near-equal-size slices" — concatenating the slices in order
gives back `l`, there are `n` of them, and any two slice sizes differ by at
most one. -/
def IsNearEqualPartition (l : List String) (n : Nat) (parts : List (List String)) : Prop :=
  parts.flatten = l ∧ parts.length = n ∧
    ∀ p ∈ parts, ∀ q ∈ parts, p.length ≤ q.length + 1

/-- Modelled from the spec: "the concatenation, in slice order, of the
sequential tokenizer-budget strategy applied independently to each slice". -/
def seqConcatOverPartition (tok : String → Nat) (token_seq_length : Nat)
    (parts : List (List String)) : Option (List String) :=
  (parts.mapM (prev_chunk_based_on_token_seq_len tok token_seq_length)).map List.flatten

/-! ## Helper lemmas: the quality filter -/

/-- The `{"long", "short"}` counting loop computes the two `countP`s. -/
theorem countLongShort_foldl (ws : List String) (a b : Nat) :
    ws.foldl (fun c w => if 1 < w.length then (c.1 + 1, c.2) else (c.1, c.2 + 1)) (a, b) =
      (a + ws.countP (fun w => decide (1 < w.length)),
        b + ws.countP (fun w => decide (w.length ≤ 1))) := by
  induction ws generalizing a b with
  | nil => simp
  | cons w rest ih =>
    by_cases h : 1 < w.length
    · have h' : ¬ w.length ≤ 1 := by omega
      simp [List.countP_cons, h, h', ih, Prod.ext_iff]
      omega
    · have h' : w.length ≤ 1 := by omega
      simp [List.countP_cons, h, h', ih, Prod.ext_iff]
      omega

theorem countLongShort_eq (ws : List String) :
    countLongShort ws =
      (ws.countP (fun w => decide (1 < w.length)),
        ws.countP (fun w => decide (w.length ≤ 1))) := by
  simpa using countLongShort_foldl ws 0 0

/-- Pass A is the filter by its per-sentence keep decision. -/
theorem passA_eq_filter (ca : ℚ) (swt : Nat) (l : List String) :
    counting_length_of_letters_and_if_to_many_remove ca swt l =
      l.filter (keepLetterLength ca swt) := by
  induction l with
  | nil => rfl
  | cons s rest ih =>
    by_cases h : keepLetterLength ca swt s <;>
      simp [counting_length_of_letters_and_if_to_many_remove, h, ih]

/-- Pass B is the filter by its per-sentence keep decision. -/
theorem passB_eq_filter (nr : ℚ) (l : List String) :
    counting_sequence_length_of_numbers nr l = l.filter (keepNumberRatio nr) := by
  induction l with
  | nil => rfl
  | cons s rest ih =>
    by_cases h : keepNumberRatio nr s <;>
      simp [counting_sequence_length_of_numbers, h, ih]

/-- If `pySplitAux` returns no word, the pending word is empty and every
character seen was whitespace. -/
theorem pySplitAux_eq_nil (cs : List Char) (cur : List Char)
    (h : pySplitAux cs cur = []) : cur = [] ∧ ∀ c ∈ cs, isPyWS c := by
  induction cs generalizing cur with
  | nil =>
    by_cases hc : cur.isEmpty
    · exact ⟨List.isEmpty_iff.mp hc, by simp⟩
    · simp [pySplitAux, hc] at h
  | cons c cs ih =>
    by_cases hw : isPyWS c
    · by_cases hc : cur.isEmpty
      · simp only [pySplitAux, hw, if_true, hc] at h
        exact ⟨List.isEmpty_iff.mp hc, by
          intro d hd
          rcases List.mem_cons.mp hd with rfl | hd
          · exact hw
          · exact (ih [] h).2 d hd⟩
      · simp [pySplitAux, hw, hc] at h
    · simp only [pySplitAux, hw, if_false] at h
      exact absurd (ih (c :: cur) h).1 (by simp)

/-- A sentence with no whitespace-split words has every character whitespace,
hence contains no digit. -/
theorem hasNumbers_eq_false_of_pySplit_nil (s : String) (h : pySplit s = []) :
    hasNumbers s = false := by
  have hall := (pySplitAux_eq_nil s.toList [] h).2
  simp only [hasNumbers, List.any_eq_false]
  intro c hc
  have hw := hall c hc
  simp only [isPyWS, Bool.or_eq_true, decide_eq_true_eq] at hw
  rcases hw with ((((rfl | rfl) | rfl) | rfl) | rfl) | rfl <;> decide

/-! ## Claims about the quality filter -/

/-- C5: Pass A keeps a sentence iff `avg > counting_avg` or its whitespace
word count is strictly below `short_word_threshold`, where
`long` counts words of length > 1, `short` counts words of length ≤ 1,
`ratio = (long + 0.5) / (short + 0.001)`,
`ratio_len = 1 - short / (word_count + 0.1)` and `avg = (ratio + ratio_len) / 2`;
exactly the kept sentences appear in the output, in input order. -/
theorem passA_keeps_iff_avg_or_short (ca : ℚ) (swt : Nat) (l : List String) :
    counting_length_of_letters_and_if_to_many_remove ca swt l =
      l.filter (fun sent =>
        let ws := pySplit sent
        let long : ℚ := ws.countP (fun w => decide (1 < w.length))
        let short : ℚ := ws.countP (fun w => decide (w.length ≤ 1))
        let ratio : ℚ := (long + 1/2) / (short + 1/1000)
        let ratio_len : ℚ := 1 - short / ((ws.length : ℚ) + 1/10)
        let avg := (ratio + ratio_len) / 2
        decide (avg > ca) || decide (ws.length < swt)) := by
  rw [passA_eq_filter]
  apply List.filter_congr
  intro sent _
  simp only [keepLetterLength, countLongShort_eq]
  by_cases h1 :
      ca < ((((pySplit sent).countP (fun w => decide (1 < w.length)) : ℚ) + 1/2) /
            (((pySplit sent).countP (fun w => decide (w.length ≤ 1)) : ℚ) + 1/1000) +
            (1 - ((pySplit sent).countP (fun w => decide (w.length ≤ 1)) : ℚ) /
              (((pySplit sent).length : ℚ) + 1/10))) / 2 <;>
    by_cases h2 : (pySplit sent).length < swt <;>
    simp [h1, h2, gt_iff_lt]

/-- C6: Pass A and Pass B are idempotent — re-running either pass on its own
output with the same thresholds returns that output unchanged. -/
theorem passA_passB_idempotent (ca nr : ℚ) (swt : Nat) (l : List String) :
    counting_length_of_letters_and_if_to_many_remove ca swt
        (counting_length_of_letters_and_if_to_many_remove ca swt l) =
      counting_length_of_letters_and_if_to_many_remove ca swt l ∧
    counting_sequence_length_of_numbers nr
        (counting_sequence_length_of_numbers nr l) =
      counting_sequence_length_of_numbers nr l := by
  constructor
  · simp [passA_eq_filter, List.filter_filter]
  · simp [passB_eq_filter, List.filter_filter]

/-- C7: `clean_pipe` never lengthens its input, and the empty list maps to the
empty list. -/
theorem clean_pipe_shrinks (ca nr : ℚ) (swt : Nat) (l : List String) :
    (clean_pipe ca nr swt l).length ≤ l.length ∧ clean_pipe ca nr swt [] = [] := by
  refine ⟨?_, rfl⟩
  calc (clean_pipe ca nr swt l).length
      ≤ (counting_length_of_letters_and_if_to_many_remove ca swt l).length := by
        simp only [clean_pipe, passB_eq_filter]
        exact List.length_filter_le _ _
    _ ≤ l.length := by
        simp only [passA_eq_filter]
        exact List.length_filter_le _ _

/-- C10: a sentence with zero whitespace-split words (empty or
whitespace-only) survives `clean_pipe` whenever `counting_avg < 250.5`:
Pass A computes `avg = (500 + 1) / 2 = 250.5 > counting_avg`, and such a
sentence has no digit, so Pass B keeps it unconditionally. -/
theorem whitespace_only_survives_clean_pipe (ca nr : ℚ) (swt : Nat) (s : String)
    (l : List String) (hws : pySplit s = []) (hca : ca < 501/2) (hmem : s ∈ l) :
    s ∈ clean_pipe ca nr swt l := by
  have hA : keepLetterLength ca swt s = true := by
    simp only [keepLetterLength, hws, countLongShort_eq]
    norm_num
    exact Or.inl hca
  have hB : keepNumberRatio nr s = true := by
    simp [keepNumberRatio, hasNumbers_eq_false_of_pySplit_nil s hws]
  simp only [clean_pipe, passA_eq_filter, passB_eq_filter]
  exact List.mem_filter.mpr ⟨List.mem_filter.mpr ⟨hmem, hA⟩, hB⟩

/-- Witness for C10 at a concrete input: the empty sentence survives the
default configuration. -/
theorem whitespace_only_survives_clean_pipe_witness :
    pySplit "" = [] ∧ (13/20 : ℚ) < 501/2 ∧ "" ∈ [""] ∧
      "" ∈ clean_pipe (13/20) (7/10) 7 [""] :=
  ⟨rfl, by norm_num, by simp,
    whitespace_only_survives_clean_pipe (13/20) (7/10) 7 "" [""] rfl (by norm_num) (by simp)⟩

/-! ## Helper lemmas: the chunker -/

/-- Prepending the separator space does not change the stripped string. -/
theorem pyStrip_space_prepend (s : String) : pyStrip (" " ++ s) = pyStrip s := by
  have h : (" " ++ s).toList = ' ' :: s.toList := rfl
  simp [pyStrip, h, List.dropWhile]
  rfl

/-- The word-count loop emits nothing when no accumulator state ever exceeds
the budget. -/
theorem chunkSeqLoop_no_emit (n : Nat) (rest : List String) :
    ∀ temp acc, (∀ t ∈ accumPrefixes temp rest, (pySplit t).length ≤ n) →
      chunkSeqLoop n rest temp acc = acc := by
  induction rest with
  | nil => intro temp acc _; rfl
  | cons s r ih =>
    intro temp acc h
    have h1 : (pySplit (temp ++ " " ++ s)).length ≤ n :=
      h _ (by simp [accumPrefixes])
    simp only [chunkSeqLoop, if_neg (Nat.not_lt.mpr h1)]
    exact ih _ _ (fun t ht => h t (by simp [accumPrefixes, ht]))

/-- The tokenizer-budget loop emits nothing and keeps its state when no
accumulator snapshot ever exceeds the budget. -/
theorem tkLoop_no_emit (tok : String → Nat) (b : Nat) (rest : List String) :
    ∀ st : TkState, (∀ t ∈ accumPrefixes st.temp rest, tok (pyStrip t) ≤ b) →
      ∃ st' : TkState, tkLoop tok b rest st = some st' ∧ st'.chunks = st.chunks := by
  induction rest with
  | nil => intro st _; exact ⟨st, rfl, rfl⟩
  | cons s r ih =>
    intro st h
    have h1 : tok (pyStrip (st.temp ++ " " ++ s)) ≤ b :=
      h _ (by simp [accumPrefixes])
    simp only [tkLoop, tkStep, if_neg (Nat.not_lt.mpr h1)]
    exact ih ⟨st.temp ++ " " ++ s, st.hist ++ [pyStrip (st.temp ++ " " ++ s)], st.chunks⟩
      (fun t ht => h t (by simp [accumPrefixes, ht]))

/-! ## Claims about the chunker dispatch and edge cases -/

/-- C9: with fewer than 10 input sentences, `chunker_function_` returns the
single string obtained by joining the sentences with spaces, regardless of
the configured budgets, strategy flags or tokenizer. -/
theorem chunker_fallback_joins (tok : String → Nat) (seq_length : Option Nat)
    (token_seq_length : Nat) (parallelize : Bool) (cpu_count : Nat) (l : List String)
    (h : l.length < 10) :
    chunker_function_ tok seq_length token_seq_length parallelize cpu_count l =
      ChunkerResult.joined (pyJoin l) := by
  simp [chunker_function_, h]

/-- Witness for C9: the 9-element example yields the joined string. -/
theorem chunker_fallback_joins_witness :
    (["a", "b", "c", "d", "e", "f", "g", "h", "i"] : List String).length < 10 ∧
      chunker_function_ wcTok none 5 false 2 ["a", "b", "c", "d", "e", "f", "g", "h", "i"] =
        ChunkerResult.joined "a b c d e f g h i" :=
  ⟨by decide,
    chunker_fallback_joins wcTok none 5 false 2 ["a", "b", "c", "d", "e", "f", "g", "h", "i"]
      (by decide)⟩

/-- C3: on any list whose first sentence alone, once stripped, tokenizes to
more than `token_seq_length` tokens, `prev_chunk_based_on_token_seq_len` reads
index `-2` of the one-element history and fails with an out-of-range access
(`none`, modelling the `IndexError`) instead of returning a chunk list. -/
theorem first_sentence_overflow_index_error (tok : String → Nat) (token_seq_length : Nat)
    (s : String) (rest : List String) (h : token_seq_length < tok (pyStrip s)) :
    prev_chunk_based_on_token_seq_len tok token_seq_length (s :: rest) = none := by
  have hs : pyStrip ("" ++ " " ++ s) = pyStrip s := pyStrip_space_prepend s
  simp only [prev_chunk_based_on_token_seq_len, tkRun, tkLoop, tkStep, hs, if_pos h]
  rfl

/-- Witness for C3: a single over-budget first sentence crashes the run. -/
theorem first_sentence_overflow_index_error_witness :
    (0 : Nat) < wcTok (pyStrip "a") ∧
      prev_chunk_based_on_token_seq_len wcTok 0 ["a", "b"] = none :=
  ⟨by decide, first_sentence_overflow_index_error wcTok 0 "a" ["b"] (by decide)⟩

/-- C8: when the running accumulator never crosses the configured budget at
any step — word count never above `seq_length` for the word-count strategy,
token count of the running stripped snapshot never above `token_seq_length`
for the tokenizer-budget strategy — the strategy returns zero chunks: all
accumulated content is discarded with no trailing flush. -/
theorem budget_never_crossed_zero_chunks (seq_length : Nat) (tok : String → Nat)
    (token_seq_length : Nat) (l : List String) :
    ((∀ t ∈ accumPrefixes "" l, (pySplit t).length ≤ seq_length) →
        chunk_based_on_seq_len seq_length l = []) ∧
    ((∀ t ∈ accumPrefixes "" l, tok (pyStrip t) ≤ token_seq_length) →
        prev_chunk_based_on_token_seq_len tok token_seq_length l = some []) := by
  constructor
  · intro h
    exact chunkSeqLoop_no_emit seq_length l "" [] h
  · intro h
    obtain ⟨st', hrun, hchunks⟩ := tkLoop_no_emit tok token_seq_length l ⟨"", [], []⟩ h
    simp [prev_chunk_based_on_token_seq_len, tkRun, hrun, hchunks]

/-- Witness for C8: a two-sentence input strictly under both budgets yields
zero chunks from both strategies. -/
theorem budget_never_crossed_zero_chunks_witness :
    (∀ t ∈ accumPrefixes "" ["a", "b"], (pySplit t).length ≤ 5) ∧
      (∀ t ∈ accumPrefixes "" ["a", "b"], wcTok (pyStrip t) ≤ 5) ∧
      chunk_based_on_seq_len 5 ["a", "b"] = [] ∧
      prev_chunk_based_on_token_seq_len wcTok 5 ["a", "b"] = some [] :=
  ⟨by decide, by decide,
    (budget_never_crossed_zero_chunks 5 wcTok 5 ["a", "b"]).1 (by decide),
    (budget_never_crossed_zero_chunks 5 wcTok 5 ["a", "b"]).2 (by decide)⟩

/-! ## Helper lemmas: `np.array_split` -/

/-- Sum of the indicator-adjusted sizes over `range n`. -/
theorem sum_range_if_lt (n q r : Nat) :
    ((List.range n).map (fun i => if i < r then q + 1 else q)).sum = n * q + min r n := by
  induction n with
  | zero => simp
  | succ n ih =>
    rw [List.range_succ, List.map_append, List.sum_append]
    by_cases h : n < r
    · have : min r (n + 1) = n + 1 := by omega
      have h2 : min r n = n := by omega
      simp only [List.map_cons, List.map_nil, List.sum_cons, List.sum_nil, if_pos h, ih,
        this, h2]
      ring_nf
    · have : min r (n + 1) = min r n := by omega
      simp only [List.map_cons, List.map_nil, List.sum_cons, List.sum_nil, if_neg h, ih,
        this]
      ring_nf

/-- The `np.array_split` slice sizes sum to the input length. -/
theorem splitSizes_sum (L n : Nat) (hn : 0 < n) : (splitSizes L n).sum = L := by
  have hmod : L % n < n := Nat.mod_lt _ hn
  rw [splitSizes, sum_range_if_lt, min_eq_left hmod.le]
  exact Nat.div_add_mod L n

/-- Cutting along sizes and flattening recovers the prefix of total size. -/
theorem takeDrop_flatten (ks : List Nat) : ∀ l : List α,
    (takeDrop l ks).flatten = l.take ks.sum := by
  induction ks with
  | nil => intro l; rfl
  | cons k ks ih =>
    intro l
    simp only [takeDrop, List.flatten_cons, ih, List.sum_cons, List.take_add]

/-- One slice per requested size. -/
theorem takeDrop_length (ks : List Nat) : ∀ l : List α,
    (takeDrop l ks).length = ks.length := by
  induction ks with
  | nil => intro l; rfl
  | cons k ks ih => intro l; simp [takeDrop, ih]

/-- When the sizes fit in the list, each slice has exactly its requested
size. -/
theorem takeDrop_map_length (ks : List Nat) : ∀ l : List α, ks.sum ≤ l.length →
    (takeDrop l ks).map List.length = ks := by
  induction ks with
  | nil => intro l _; rfl
  | cons k ks ih =>
    intro l h
    simp only [List.sum_cons] at h
    have hk : k ≤ l.length := by omega
    simp only [takeDrop, List.map_cons, List.length_take_of_le hk]
    rw [ih (l.drop k) (by simp; omega)]

/-- Every `np.array_split` slice size is `L / n` or `L / n + 1`. -/
theorem splitSizes_mem (L n x : Nat) (hx : x ∈ splitSizes L n) :
    x = L / n ∨ x = L / n + 1 := by
  simp only [splitSizes, List.mem_map] at hx
  obtain ⟨i, _, hi⟩ := hx
  by_cases h : i < L % n
  · right; rw [← hi, if_pos h]
  · left; rw [← hi, if_neg h]

/-! ## The parallel-refinement claim -/

/-- C4 (amended): for the fixed partition produced by `np.array_split` —
which is a decomposition into `cpu_count` contiguous, order-preserving,
near-equal-size slices — the parallel tokenizer-budget strategy's output
equals the concatenation, in slice order, of the sequential tokenizer-budget
strategy applied independently to each slice. -/
theorem parallel_equals_seq_over_array_split (tok : String → Nat)
    (token_seq_length cpu_count : Nat) (l : List String) (hn : 0 < cpu_count) :
    IsNearEqualPartition l cpu_count (array_split l cpu_count) ∧
      parallel_chunker_prev_chunk_based_on_token_seq_len tok token_seq_length cpu_count l =
        seqConcatOverPartition tok token_seq_length (array_split l cpu_count) := by
  have hsum : (splitSizes l.length cpu_count).sum = l.length := splitSizes_sum _ _ hn
  refine ⟨⟨?_, ?_, ?_⟩, rfl⟩
  · rw [array_split, takeDrop_flatten, hsum, List.take_length]
  · rw [array_split, takeDrop_length, splitSizes, List.length_map, List.length_range]
  · intro p hp q hq
    have hmap : (array_split l cpu_count).map List.length = splitSizes l.length cpu_count :=
      takeDrop_map_length _ _ (le_of_eq hsum)
    have hp' : p.length ∈ splitSizes l.length cpu_count :=
      hmap ▸ List.mem_map_of_mem List.length hp
    have hq' : q.length ∈ splitSizes l.length cpu_count :=
      hmap ▸ List.mem_map_of_mem List.length hq
    rcases splitSizes_mem _ _ _ hp' with h1 | h1 <;>
      rcases splitSizes_mem _ _ _ hq' with h2 | h2 <;> omega

/-- Witness for C4 (amended) at a concrete input. -/
theorem parallel_equals_seq_over_array_split_witness :
    0 < 2 ∧
      (IsNearEqualPartition ["a", "b", "c"] 2 (array_split ["a", "b", "c"] 2) ∧
        parallel_chunker_prev_chunk_based_on_token_seq_len wcTok 1 2 ["a", "b", "c"] =
          seqConcatOverPartition wcTok 1 (array_split ["a", "b", "c"] 2)) :=
  ⟨by decide, parallel_equals_seq_over_array_split wcTok 1 2 ["a", "b", "c"] (by decide)⟩

/-- Counterexample for C4 as stated: `[["a"], ["b c", "d"]]` is a contiguous,
order-preserving, near-equal-size partition of `["a", "b c", "d"]` into two
slices, yet the parallel strategy's output differs from the concatenation of
the sequential strategy over those slices (the parallel strategy uses the
other near-equal split `[["a", "b c"], ["d"]]`). -/
theorem parallel_differs_on_other_near_equal_partition :
    IsNearEqualPartition ["a", "b c", "d"] 2 [["a"], ["b c", "d"]] ∧
      parallel_chunker_prev_chunk_based_on_token_seq_len wcTok 1 2 ["a", "b c", "d"] ≠
        seqConcatOverPartition wcTok 1 [["a"], ["b c", "d"]] := by
  constructor
  · exact ⟨rfl, rfl, by decide⟩
  · decide

/-! ## Helper lemmas: the tokenizer-budget loop step structure -/

/-- Splitting a run of the tokenizer-budget loop at a list append. -/
theorem tkLoop_append (tok : String → Nat) (b : Nat) (xs : List String) :
    ∀ (ys : List String) (st : TkState),
      tkLoop tok b (xs ++ ys) st =
        match tkLoop tok b xs st with
        | none => none
        | some st' => tkLoop tok b ys st' := by
  induction xs with
  | nil => intro ys st; rfl
  | cons s r ih =>
    intro ys st
    simp only [List.cons_append, tkLoop]
    cases tkStep tok b st s with
    | none => rfl
    | some st₁ => exact ih ys st₁

/-- A string with the separator space in the middle is never empty. -/
theorem append_space_ne_empty (a b : String) : a ++ " " ++ b ≠ "" := by
  intro h
  have hl : (a.toList ++ [' ']) ++ b.toList = [] := congrArg String.toList h
  simp at hl

/-- Python `xs[-2]` of a one-longer list is the last element of the shorter
list. -/
theorem pyGetNeg_concat_two (xs : List α) (a : α) :
    pyGetNeg (xs ++ [a]) 2 = xs.getLast? := by
  simp [pyGetNeg, List.get?_zero, ← List.head?_eq_getElem?, List.head?_reverse]

/-- Invariant of the tokenizer-budget loop: while the accumulator is
non-empty, the most recent history snapshot is exactly the stripped
accumulator. -/
theorem tkLoop_last_snapshot (tok : String → Nat) (b : Nat) (l : List String) :
    ∀ st st' : TkState,
      (st.temp ≠ "" → st.hist.getLast? = some (pyStrip st.temp)) →
      tkLoop tok b l st = some st' →
      (st'.temp ≠ "" → st'.hist.getLast? = some (pyStrip st'.temp)) := by
  induction l with
  | nil =>
    intro st st' hinv hrun
    simp only [tkLoop] at hrun
    injection hrun with h
    exact h ▸ hinv
  | cons s r ih =>
    intro st st' hinv hrun
    simp only [tkLoop, tkStep] at hrun
    by_cases hov : b < tok (pyStrip (st.temp ++ " " ++ s))
    · rw [if_pos hov] at hrun
      cases hget : pyGetNeg (st.hist ++ [pyStrip (st.temp ++ " " ++ s)]) 2 with
      | none => rw [hget] at hrun; exact absurd hrun (by simp)
      | some prev =>
        rw [hget] at hrun
        exact ih _ _ (fun h => absurd rfl h) hrun
    · rw [if_neg hov] at hrun
      refine ih _ _ (fun _ => ?_) hrun
      exact List.getLast?_concat _

/-- The invariant holds along any successful run from the initial state. -/
theorem tkRun_last_snapshot (tok : String → Nat) (b : Nat) (l : List String)
    (st : TkState) (hrun : tkRun tok b l = some st) :
    st.temp ≠ "" → st.hist.getLast? = some (pyStrip st.temp) :=
  tkLoop_last_snapshot tok b l _ st (fun h => absurd rfl h) hrun

/-! ## The overflow-emission claim -/

/-- C1 (amended): at every overflow step of the sequential tokenizer-budget
strategy, the chunk emitted is the second-to-last history entry and the
accumulator is reset to empty afterwards; that entry equals the stripped
accumulator state from immediately before the overflow-causing sentence was
appended *provided that accumulator was non-empty*, i.e. provided the
previous step did not itself overflow and this is not the first step.  (When
the accumulator was just reset, the second-to-last history entry is the
previous overflow's snapshot instead, because the history list is never
reset.) -/
theorem overflow_emits_second_to_last_snapshot (tok : String → Nat) (b : Nat)
    (l : List String) (k : Nat) (st st' : TkState) (hk : k < l.length)
    (hrun : tkRun tok b (l.take k) = some st)
    (hrun' : tkRun tok b (l.take (k + 1)) = some st')
    (hov : b < tok (pyStrip (st.temp ++ " " ++ l.get ⟨k, hk⟩))) :
    (∃ prev, pyGetNeg st'.hist 2 = some prev ∧ st'.chunks = st.chunks ++ [prev]) ∧
      st'.temp = "" ∧
      (st.temp ≠ "" → st'.chunks = st.chunks ++ [pyStrip st.temp]) := by
  have htake : l.take (k + 1) = l.take k ++ [l.get ⟨k, hk⟩] := by
    simp [List.take_succ, List.get?_eq_get hk]
  rw [tkRun, htake, tkLoop_append, show tkLoop tok b (l.take k) ⟨"", [], []⟩ =
    tkRun tok b (l.take k) from rfl, hrun] at hrun'
  simp only [tkLoop, tkStep, if_pos hov] at hrun'
  cases hget : pyGetNeg (st.hist ++ [pyStrip (st.temp ++ " " ++ l.get ⟨k, hk⟩)]) 2 with
  | none => rw [hget] at hrun'; exact absurd hrun' (by simp)
  | some prev =>
    rw [hget] at hrun'
    have hst' : st' = ⟨"", st.hist ++ [pyStrip (st.temp ++ " " ++ l.get ⟨k, hk⟩)],
        st.chunks ++ [prev]⟩ := by
      simpa [tkLoop] using hrun'.symm
    subst hst'
    refine ⟨⟨prev, hget, rfl⟩, rfl, ?_⟩
    intro htemp
    have hlast := tkRun_last_snapshot tok b (l.take k) st hrun htemp
    rw [pyGetNeg_concat_two, hlast] at hget
    simp only [Option.some.injEq] at hget
    rw [hget]

/-- Counterexample for C1 as stated: with a word-count tokenizer and budget 1
on `["a", "b c", "d e"]`, the overflow at the third sentence (step 2) emits
`"a b c"` — the second-to-last history entry — even though the accumulator
immediately before `"d e"` was appended was empty (it was reset by the
overflow at step 1), so the emitted chunk is *not* that accumulator state. -/
theorem overflow_emission_not_prev_accumulator :
    tkRun wcTok 1 (["a", "b c", "d e"].take 2) = some ⟨"", ["a", "a b c"], ["a"]⟩ ∧
      1 < wcTok (pyStrip ("" ++ " " ++ "d e")) ∧
      tkRun wcTok 1 (["a", "b c", "d e"].take 3) =
        some ⟨"", ["a", "a b c", "d e"], ["a", "a b c"]⟩ ∧
      ("a b c" : String) ≠ pyStrip "" := by
  refine ⟨by decide, by decide, by decide, by decide⟩

/-- Witness for C1 (amended): the overflow at step 1 of `["a", "b c"]` with
budget 1 emits the stripped pre-append accumulator `"a"` and resets. -/
theorem overflow_emits_second_to_last_snapshot_witness :
    tkRun wcTok 1 (["a", "b c"].take 1) = some ⟨" a", ["a"], []⟩ ∧
      tkRun wcTok 1 (["a", "b c"].take 2) = some ⟨"", ["a", "a b c"], ["a"]⟩ ∧
      1 < wcTok (pyStrip (" a" ++ " " ++ "b c")) ∧
      ((∃ prev, pyGetNeg (TkState.mk "" ["a", "a b c"] ["a"]).hist 2 = some prev ∧
          (TkState.mk "" ["a", "a b c"] ["a"]).chunks =
            (TkState.mk " a" ["a"] []).chunks ++ [prev]) ∧
        (TkState.mk "" ["a", "a b c"] ["a"]).temp = "" ∧
        ((TkState.mk " a" ["a"] []).temp ≠ "" →
          (TkState.mk "" ["a", "a b c"] ["a"]).chunks =
            (TkState.mk " a" ["a"] []).chunks ++ [pyStrip (TkState.mk " a" ["a"] []).temp])) :=
  ⟨by decide, by decide, by decide,
    overflow_emits_second_to_last_snapshot wcTok 1 ["a", "b c"] 1
      ⟨" a", ["a"], []⟩ ⟨"", ["a", "a b c"], ["a"]⟩ (by decide)
      (by decide) (by decide) (by decide)⟩

/-! ## Helper lemmas: instrumented chunkers -/

/-- Forgetting the positions in the instrumented word-count loop recovers the
source loop. -/
theorem chunkSeqLoopI_map_fst (n : Nat) (ps : List (Nat × String)) :
    ∀ (temp : String) (idxs : List Nat) (acc : List (String × List Nat)),
      (chunkSeqLoopI n ps temp idxs acc).map Prod.fst =
        chunkSeqLoop n (ps.map Prod.snd) temp (acc.map Prod.fst) := by
  induction ps with
  | nil => intro temp idxs acc; rfl
  | cons p rest ih =>
    obtain ⟨i, s⟩ := p
    intro temp idxs acc
    by_cases h : n < (pySplit (temp ++ " " ++ s)).length <;>
      simp [chunkSeqLoopI, chunkSeqLoop, h, ih]

/-- The emitted positions of the instrumented word-count loop extend the
already-emitted ones by a sublist of the pending and future positions. -/
theorem chunkSeqLoopI_indices (n : Nat) (ps : List (Nat × String)) :
    ∀ (temp : String) (idxs : List Nat) (acc : List (String × List Nat)),
      ∃ t, ((chunkSeqLoopI n ps temp idxs acc).map Prod.snd).flatten =
          ((acc.map Prod.snd).flatten) ++ t ∧
        t.Sublist (idxs ++ ps.map Prod.fst) := by
  induction ps with
  | nil => intro temp idxs acc; exact ⟨[], by simp [chunkSeqLoopI], List.nil_sublist _⟩
  | cons p rest ih =>
    obtain ⟨i, s⟩ := p
    intro temp idxs acc
    by_cases h : n < (pySplit (temp ++ " " ++ s)).length
    · obtain ⟨t', ht', hsub⟩ := ih "" [] (acc ++ [(pyStrip (temp ++ " " ++ s), idxs ++ [i])])
      refine ⟨(idxs ++ [i]) ++ t', ?_, ?_⟩
      · simp only [chunkSeqLoopI, if_pos h]
        rw [ht']
        simp
      · have hsub' : t'.Sublist (rest.map Prod.fst) := by simpa using hsub
        have : ((idxs ++ [i]) ++ t').Sublist ((idxs ++ [i]) ++ rest.map Prod.fst) :=
          (List.append_sublist_append_left _).mpr hsub'
        simpa [List.append_assoc] using this
    · obtain ⟨t', ht', hsub⟩ := ih (temp ++ " " ++ s) (idxs ++ [i]) acc
      refine ⟨t', ?_, ?_⟩
      · simp only [chunkSeqLoopI, if_neg h]
        exact ht'
      · simpa [List.append_assoc] using hsub

/-- Python negative indexing commutes with `map`. -/
theorem pyGetNeg_map (f : α → β) (xs : List α) (k : Nat) :
    pyGetNeg (xs.map f) k = (pyGetNeg xs k).map f := by
  simp [pyGetNeg, ← List.map_reverse, List.getElem?_map]

/-- Forgetting the positions in the instrumented tokenizer-budget loop
recovers the source loop (including the `IndexError` outcome). -/
theorem tkLoopI_map_fst (tok : String → Nat) (b : Nat) (ps : List (Nat × String)) :
    ∀ (temp : String) (idxs : List Nat) (hist acc : List (String × List Nat)),
      (tkLoopI tok b ps temp idxs hist acc).map (List.map Prod.fst) =
        (tkLoop tok b (ps.map Prod.snd) ⟨temp, hist.map Prod.fst, acc.map Prod.fst⟩).map
          TkState.chunks := by
  induction ps with
  | nil => intro temp idxs hist acc; rfl
  | cons p rest ih =>
    obtain ⟨i, s⟩ := p
    intro temp idxs hist acc
    have hmap : (hist ++ [(pyStrip (temp ++ " " ++ s), idxs ++ [i])]).map Prod.fst =
        hist.map Prod.fst ++ [pyStrip (temp ++ " " ++ s)] := by simp
    by_cases h : b < tok (pyStrip (temp ++ " " ++ s))
    · cases hget : pyGetNeg (hist ++ [(pyStrip (temp ++ " " ++ s), idxs ++ [i])]) 2 with
      | none =>
        have hget' : pyGetNeg (hist.map Prod.fst ++ [pyStrip (temp ++ " " ++ s)]) 2 = none := by
          rw [← hmap, pyGetNeg_map, hget]; rfl
        simp only [tkLoopI, tkLoop, tkStep, List.map_cons, if_pos h, hget, hget']
        rfl
      | some prev =>
        have hget' : pyGetNeg (hist.map Prod.fst ++ [pyStrip (temp ++ " " ++ s)]) 2 =
            some prev.1 := by
          rw [← hmap, pyGetNeg_map, hget]; rfl
        simp only [tkLoopI, tkLoop, tkStep, List.map_cons, if_pos h, hget, hget']
        rw [ih]
        simp
    · simp only [tkLoopI, tkLoop, tkStep, List.map_cons, if_neg h]
      rw [ih]
      simp

/-- Provided no single (stripped) sentence alone tokenizes above the budget,
the instrumented tokenizer-budget loop succeeds and its emitted positions
extend the already-emitted ones by a sublist of the pending and future
positions. -/
theorem tkLoopI_indices (tok : String → Nat) (b : Nat) (ps : List (Nat × String)) :
    ∀ (temp : String) (idxs : List Nat) (hist acc : List (String × List Nat)),
      (∀ p ∈ ps, tok (pyStrip (" " ++ p.2)) ≤ b) →
      (temp = "" → idxs = []) →
      (temp ≠ "" → hist.getLast?.map Prod.snd = some idxs) →
      ∃ res, tkLoopI tok b ps temp idxs hist acc = some res ∧
        ∃ t, ((res.map Prod.snd).flatten = ((acc.map Prod.snd).flatten) ++ t ∧
          t.Sublist (idxs ++ ps.map Prod.fst)) := by
  induction ps with
  | nil =>
    intro temp idxs hist acc _ _ _
    exact ⟨acc, rfl, [], by simp, List.nil_sublist _⟩
  | cons p rest ih =>
    obtain ⟨i, s⟩ := p
    intro temp idxs hist acc hH h0 h1
    have hHr : ∀ p ∈ rest, tok (pyStrip (" " ++ p.2)) ≤ b :=
      fun p hp => hH p (List.mem_cons_of_mem _ hp)
    by_cases hov : b < tok (pyStrip (temp ++ " " ++ s))
    · have htemp : temp ≠ "" := by
        intro he
        subst he
        have : pyStrip ("" ++ " " ++ s) = pyStrip (" " ++ s) := rfl
        rw [this] at hov
        exact absurd (hH (i, s) (List.mem_cons_self _ _)) (Nat.not_le.mpr hov)
      obtain ⟨last, hlast, hlast2⟩ : ∃ last, hist.getLast? = some last ∧ last.2 = idxs := by
        cases hg : hist.getLast? with
        | none => rw [hg] at h1; exact absurd (h1 htemp) (by simp)
        | some last =>
          refine ⟨last, rfl, ?_⟩
          have := h1 htemp
          rw [hg] at this
          simpa using this
      have hget : pyGetNeg (hist ++ [(pyStrip (temp ++ " " ++ s), idxs ++ [i])]) 2 =
          some last := by rw [pyGetNeg_concat_two, hlast]
      obtain ⟨res, hres, t', ht', hsub⟩ :=
        ih "" [] (hist ++ [(pyStrip (temp ++ " " ++ s), idxs ++ [i])]) (acc ++ [last]) hHr
          (fun _ => rfl) (fun h => absurd rfl h)
      refine ⟨res, ?_, idxs ++ t', ?_, ?_⟩
      · simp only [tkLoopI, if_pos hov, hget]
        exact hres
      · rw [ht']
        simp [hlast2, List.append_assoc]
      · have hsub' : t'.Sublist (rest.map Prod.fst) := by simpa using hsub
        have : (idxs ++ t').Sublist (idxs ++ (i :: rest.map Prod.fst)) :=
          (List.append_sublist_append_left _).mpr
            (hsub'.trans (List.sublist_cons_self _ _))
        simpa using this
    · have htemp' : temp ++ " " ++ s ≠ "" := append_space_ne_empty temp s
      obtain ⟨res, hres, t', ht', hsub⟩ :=
        ih (temp ++ " " ++ s) (idxs ++ [i])
          (hist ++ [(pyStrip (temp ++ " " ++ s), idxs ++ [i])]) acc hHr
          (fun h => absurd h htemp')
          (fun _ => by rw [List.getLast?_concat]; rfl)
      refine ⟨res, ?_, t', ?_, ?_⟩
      · simp only [tkLoopI, if_neg hov]
        exact hres
      · exact ht'
      · simpa [List.append_assoc] using hsub

/-! ## The no-duplication claim -/

/-- C2 (amended): tracking the input position of every sentence merged into a
chunk (the instrumented runs project onto the source strategies, first two
conjuncts), no input sentence occurrence lands in more than one emitted chunk
for the word-count strategy; the same holds for the sequential
tokenizer-budget strategy *provided no single stripped sentence alone
tokenizes above the budget* (which rules out two consecutive overflow steps —
after an overflow the never-reset history makes a second, immediate overflow
re-emit already-chunked sentences). -/
theorem no_sentence_in_two_chunks (seq_length : Nat) (tok : String → Nat)
    (token_seq_length : Nat) (l : List String) :
    ((chunkSeqI seq_length l).map Prod.fst = chunk_based_on_seq_len seq_length l) ∧
    ((tkRunI tok token_seq_length l).map (List.map Prod.fst) =
      prev_chunk_based_on_token_seq_len tok token_seq_length l) ∧
    (((chunkSeqI seq_length l).map Prod.snd).flatten).Nodup ∧
    ((∀ s ∈ l, tok (pyStrip (" " ++ s)) ≤ token_seq_length) →
      ∃ res, tkRunI tok token_seq_length l = some res ∧
        ((res.map Prod.snd).flatten).Nodup) := by
  refine ⟨?_, ?_, ?_, ?_⟩
  · rw [chunkSeqI, chunkSeqLoopI_map_fst, List.enum_map_snd]
    rfl
  · rw [tkRunI, tkLoopI_map_fst, List.enum_map_snd]
    rfl
  · obtain ⟨t, ht, hsub⟩ := chunkSeqLoopI_indices seq_length l.enum "" [] []
    rw [chunkSeqI, ht]
    have : t.Sublist (List.range l.length) := by
      simpa [List.enum_map_fst] using hsub
    simpa using this.nodup (List.nodup_range _)
  · intro hH
    have hH' : ∀ p ∈ l.enum, tok (pyStrip (" " ++ p.2)) ≤ token_seq_length := by
      intro p hp
      refine hH p.2 ?_
      have : p.2 ∈ l.enum.map Prod.snd := List.mem_map_of_mem Prod.snd hp
      rwa [List.enum_map_snd] at this
    obtain ⟨res, hres, t, ht, hsub⟩ :=
      tkLoopI_indices tok token_seq_length l.enum "" [] [] [] hH'
        (fun _ => rfl) (fun h => absurd rfl h)
    refine ⟨res, hres, ?_⟩
    rw [ht]
    have : t.Sublist (List.range l.length) := by
      simpa [List.enum_map_fst] using hsub
    simpa using this.nodup (List.nodup_range _)

/-- Witness for C2 (amended): a run of the tokenizer-budget strategy whose
sentences are each under budget, with its duplicate-free chunk positions. -/
theorem no_sentence_in_two_chunks_witness :
    (∀ s ∈ ["a b", "c d", "e f", "g h"], wcTok (pyStrip (" " ++ s)) ≤ 3) ∧
      (∃ res, tkRunI wcTok 3 ["a b", "c d", "e f", "g h"] = some res ∧
        ((res.map Prod.snd).flatten).Nodup) :=
  ⟨by decide,
    (no_sentence_in_two_chunks 3 wcTok 3 ["a b", "c d", "e f", "g h"]).2.2.2 (by decide)⟩

/-- Counterexample for C2 as stated: in the sequential tokenizer-budget run
on `["a", "b c", "d e"]` with budget 1, the first sentence (input position 0)
is merged into both emitted chunks, `"a"` and `"a b c"`: the consecutive
overflows at steps 1 and 2 re-emit the never-reset history snapshot. -/
theorem token_strategy_duplicates_sentence :
    tkRunI wcTok 1 ["a", "b c", "d e"] = some [("a", [0]), ("a b c", [0, 1])] ∧
      prev_chunk_based_on_token_seq_len wcTok 1 ["a", "b c", "d e"] =
        some ["a", "a b c"] ∧
      ¬ ((([("a", [0]), ("a b c", [0, 1])] : List (String × List Nat)).map
          Prod.snd).flatten).Nodup :=
  ⟨by decide, by decide, by decide⟩

end Kbuhist
